import Mathlib

/-!
Shallow embedding of the Bloom-filter redirect subsystem of
`sitecore-nextjs-optimization-template`.

Source files embedded:
- `src/lib/redirects/simple-bloom-filter.ts`: the `SimpleBloomFilter` class
  (`add`, `has`, `getHashes`, `toJSON`, `fromJSON`) and the builder
  `createBloomFilter`.
- the Bloom-filter variant of `EdgeConfigRedirectsMiddleware.getExistsRedirect`
  (consumer dispatch on the fetched serialized filter).

Modelling conventions:
- A JS string key is modelled as the list of its `charCodeAt` values
  (`Key := List Nat`); the hash loop only ever reads those code units.
- JS 32-bit wrap-around (`<< 5` and `| 0`) is modelled by `toInt32` on `Int`:
  reduction modulo 2^32 into the signed range `[-2^31, 2^31)`.  The
  intermediate expression `(hash << 5) - hash + charCode + i` is exact in
  IEEE doubles for the magnitudes involved, so only the two `ToInt32`
  conversions wrap.
- The bit array is a `List Nat`; `bitArray[hash] = 1` is `List.set` (the
  computed index is always `< m` when `m ≥ 1`; for `m = 0` the JS index is
  `NaN`, whose write is invisible to the array's length and whose read is
  `undefined`, observationally matched by the out-of-range `List.set` no-op
  and a `none` read), and the membership test `bitArray[hash] === 0` is
  `bits[hash]? == some 0` (a JS out-of-bounds read gives `undefined`, which
  is not `=== 0`, matched by `none ≠ some 0`).
- The real-valued sizing math of `createBloomFilter` (`Math.log`,
  `Math.ceil`) is idealized over `ℝ`.  For `keys.length = 0`, JS computes
  `size = Math.ceil(-0) = 0` and `hashFunctions = Math.ceil(NaN) = NaN`;
  the only use of `hashFunctions` is as the bound of the hash loop, where
  `i < NaN` is false, so `NaN` behaves exactly like `0` — which is what the
  Lean convention `0/0 = 0` yields, so the embedding is observationally
  faithful there as well.
-/

/-- A key, as the sequence of UTF-16 code units of the JS string. -/
abbrev Key := List Nat

/-- JS `ToInt32`: wrap an integer into the signed 32-bit range. -/
def toInt32 (x : Int) : Int :=
  let r := x % 4294967296
  if r < 2147483648 then r else r - 4294967296

/-- One iteration of the inner hashing loop of `getHashes`:
`hash = ((hash << 5) - hash + element.charCodeAt(j) + i) | 0`. -/
def hashChar (i : Nat) (hash : Int) (c : Nat) : Int :=
  toInt32 (toInt32 (hash * 32) - hash + (c : Int) + (i : Int))

/-- The accumulated 32-bit hash of `element` for seed `i` (the value of the
local `hash` after the character loop of `getHashes`). -/
def rawHash (i : Nat) (element : Key) : Int :=
  element.foldl (hashChar i) 0

/-- `hash = Math.abs(hash) % this.bitArray.length`: the bit index for seed
`i` in a bit array of length `m`. -/
def hashIndex (m i : Nat) (element : Key) : Nat :=
  (rawHash i element).natAbs % m

/-- The list of `k` bit indices produced by `getHashes` for a bit array of
length `m` (the outer loop `for i = 0; i < hashFunctions; i++`). -/
def getHashesAux (m k : Nat) (element : Key) : List Nat :=
  (List.range k).map fun i => hashIndex m i element

/-- The state of a `SimpleBloomFilter` instance. -/
structure SimpleBloomFilter where
  bitArray : List Nat
  hashFunctions : Nat
deriving DecidableEq, Repr

/-- `new SimpleBloomFilter(size, hashFunctions)`:
`bitArray = new Array(size).fill(0)`. -/
def SimpleBloomFilter.construct (size hashFunctions : Nat) : SimpleBloomFilter :=
  { bitArray := List.replicate size 0, hashFunctions := hashFunctions }

/-- `getHashes(element)` of the instance. -/
def SimpleBloomFilter.getHashes (f : SimpleBloomFilter) (element : Key) : List Nat :=
  getHashesAux f.bitArray.length f.hashFunctions element

/-- The loop `for (const hash of hashes) { this.bitArray[hash] = 1 }`. -/
def setOnes (bs : List Nat) (hs : List Nat) : List Nat :=
  hs.foldl (fun b h => b.set h 1) bs

/-- `add(element)`: set the bit at every hash index. -/
def SimpleBloomFilter.add (f : SimpleBloomFilter) (element : Key) : SimpleBloomFilter :=
  { f with bitArray := setOnes f.bitArray (f.getHashes element) }

/-- `has(element)`: `false` as soon as some `bitArray[hash] === 0`,
otherwise `true`. -/
def SimpleBloomFilter.has (f : SimpleBloomFilter) (element : Key) : Bool :=
  (f.getHashes element).all fun h => f.bitArray[h]? != some 0

/-- The serialized form `{ bitArray, hashFunctions }`. -/
structure FilterJSON where
  bitArray : List Nat
  hashFunctions : Nat
deriving DecidableEq, Repr

/-- `toJSON()`. -/
def SimpleBloomFilter.toJSON (f : SimpleBloomFilter) : FilterJSON :=
  { bitArray := f.bitArray, hashFunctions := f.hashFunctions }

/-- `SimpleBloomFilter.fromJSON(json)` (the already-parsed record branch):
construct with `(bitArray.length, hashFunctions)`, then overwrite the fresh
bit array with the deserialized one. -/
def SimpleBloomFilter.fromJSON (j : FilterJSON) : SimpleBloomFilter :=
  let filter := SimpleBloomFilter.construct j.bitArray.length j.hashFunctions
  { filter with bitArray := j.bitArray }

/-- The `for (const key of keys) bloomFilter.add(key)` loop. -/
def SimpleBloomFilter.addAll (f : SimpleBloomFilter) (keys : List Key) : SimpleBloomFilter :=
  keys.foldl SimpleBloomFilter.add f

/-- The local `size` of `createBloomFilter`:
`Math.ceil(-(keys.length * Math.log(errorRate)) / Math.log(2) ** 2)`. -/
noncomputable def bloomSize (n : Nat) (errorRate : ℝ) : Nat :=
  (⌈-((n : ℝ) * Real.log errorRate) / (Real.log 2) ^ 2⌉).toNat

/-- The local `hashFunctions` of `createBloomFilter`:
`Math.ceil((size / keys.length) * Math.log(2))`.  (For `n = 0`, JS yields
`NaN`; `NaN`'s only use is as the bound of the hash loop, where it behaves
exactly like `0`, which is what Lean's `0 / 0 = 0` convention produces.) -/
noncomputable def bloomHashFunctions (n : Nat) (errorRate : ℝ) : Nat :=
  (⌈((bloomSize n errorRate : ℝ) / (n : ℝ)) * Real.log 2⌉).toNat

/-- `createBloomFilter(keys, errorRate)`: size the filter, add every key,
return its JSON. -/
noncomputable def createBloomFilter (keys : List Key) (errorRate : ℝ) : FilterJSON :=
  ((SimpleBloomFilter.construct (bloomSize keys.length errorRate)
      (bloomHashFunctions keys.length errorRate)).addAll keys).toJSON

/-- Modelled from the spec (§4.2, §8): the sizing formula
`m = ceil(-(n * ln r) / (ln 2)^2)` that the Builder must reproduce. -/
noncomputable def specSize (n : Nat) (r : ℝ) : Int :=
  ⌈-((n : ℝ) * Real.log r) / (Real.log 2) ^ 2⌉

/-- Modelled from the spec (§4.2, §8): the hash-count formula
`k = ceil((m / n) * ln 2)` that the Builder must reproduce. -/
noncomputable def specHashCount (m n : Nat) : Int :=
  ⌈((m : ℝ) / (n : ℝ)) * Real.log 2⌉

/-- The Bloom-filter variant of
`EdgeConfigRedirectsMiddleware.getExistsRedirect`, with its collaborators
abstracted: `bloomFilterJSON` is the value fetched from Edge Config
(`none` = absent), `superResult` is what the base-class lookup would
return, and the second component counts how many times the base-class
lookup is invoked.  `if (!bloomFilterJSON) return` gives `(none, 0)`; a
present filter dispatches on `has(pathname)`. -/
def getExistsRedirect {α : Type} (bloomFilterJSON : Option FilterJSON)
    (pathname : Key) (superResult : Option α) : Option α × Nat :=
  match bloomFilterJSON with
  | none => (none, 0)
  | some j =>
    if (SimpleBloomFilter.fromJSON j).has pathname then (superResult, 1)
    else (none, 0)

/-! ### Helper lemmas about the bit array -/

theorem setOnes_nil (bs : List Nat) : setOnes bs [] = bs := rfl

theorem setOnes_cons (bs : List Nat) (a : Nat) (t : List Nat) :
    setOnes bs (a :: t) = setOnes (bs.set a 1) t := rfl

theorem setOnes_length (hs : List Nat) : ∀ bs : List Nat,
    (setOnes bs hs).length = bs.length := by
  induction hs with
  | nil => intro bs; rfl
  | cons a t ih =>
    intro bs
    rw [setOnes_cons, ih, List.length_set]

theorem set_one_ne_zero (bs : List Nat) (h i : Nat) (hne : bs[i]? ≠ some 0) :
    (bs.set h 1)[i]? ≠ some 0 := by
  by_cases hhi : h = i
  · subst hhi
    by_cases hlt : h < bs.length
    · rw [List.getElem?_set_eq_of_lt 1 hlt]
      simp
    · rw [List.set_eq_of_length_le (by omega)]
      exact hne
  · rw [List.getElem?_set_ne hhi]
    exact hne

theorem set_one_preserves_one (bs : List Nat) (h i : Nat)
    (hone : bs[i]? = some 1) : (bs.set h 1)[i]? = some 1 := by
  by_cases hhi : h = i
  · subst hhi
    by_cases hlt : h < bs.length
    · exact List.getElem?_set_eq_of_lt 1 hlt
    · rw [List.set_eq_of_length_le (by omega)]
      exact hone
  · rw [List.getElem?_set_ne hhi]
    exact hone

theorem setOnes_ne_zero_preserved (hs : List Nat) : ∀ (bs : List Nat) (i : Nat),
    bs[i]? ≠ some 0 → (setOnes bs hs)[i]? ≠ some 0 := by
  induction hs with
  | nil => intro bs i hne; exact hne
  | cons a t ih =>
    intro bs i hne
    rw [setOnes_cons]
    exact ih (bs.set a 1) i (set_one_ne_zero bs a i hne)

theorem setOnes_one_preserved (hs : List Nat) : ∀ (bs : List Nat) (i : Nat),
    bs[i]? = some 1 → (setOnes bs hs)[i]? = some 1 := by
  induction hs with
  | nil => intro bs i hone; exact hone
  | cons a t ih =>
    intro bs i hone
    rw [setOnes_cons]
    exact ih (bs.set a 1) i (set_one_preserves_one bs a i hone)

theorem setOnes_mem_ne_zero (hs : List Nat) : ∀ (bs : List Nat) (h : Nat),
    h ∈ hs → (setOnes bs hs)[h]? ≠ some 0 := by
  induction hs with
  | nil => intro bs h hmem; cases hmem
  | cons a t ih =>
    intro bs h hmem
    rw [setOnes_cons]
    rcases List.mem_cons.mp hmem with heq | htl
    · subst heq
      apply setOnes_ne_zero_preserved
      by_cases hlt : h < bs.length
      · rw [List.getElem?_set_eq_of_lt 1 hlt]
        simp
      · rw [List.set_eq_of_length_le (by omega)]
        rw [List.getElem?_eq_none (by omega)]
        simp
    · exact ih (bs.set a 1) h htl

theorem setOnes_mem_one (hs : List Nat) : ∀ (bs : List Nat) (h : Nat),
    h ∈ hs → h < bs.length → (setOnes bs hs)[h]? = some 1 := by
  induction hs with
  | nil => intro bs h hmem; cases hmem
  | cons a t ih =>
    intro bs h hmem hlt
    rw [setOnes_cons]
    rcases List.mem_cons.mp hmem with heq | htl
    · subst heq
      exact setOnes_one_preserved t (bs.set h 1) h
        (List.getElem?_set_eq_of_lt 1 hlt)
    · exact ih (bs.set a 1) h htl (by rw [List.length_set]; exact hlt)

theorem setOnes_replicate_zero_aux (k : Nat) : ∀ bs : List Nat,
    setOnes (bs.set 0 1) (List.replicate k 0) = bs.set 0 1 := by
  induction k with
  | zero => intro bs; rfl
  | succ n ih =>
    intro bs
    rw [List.replicate_succ, setOnes_cons, List.set_set, ih]

theorem setOnes_replicate_zero (k : Nat) (hk : 1 ≤ k) (bs : List Nat) :
    setOnes bs (List.replicate k 0) = bs.set 0 1 := by
  obtain ⟨n, rfl⟩ : ∃ n, k = n + 1 := ⟨k - 1, by omega⟩
  rw [List.replicate_succ, setOnes_cons, setOnes_replicate_zero_aux]

/-! ### Helper lemmas about the filter operations -/

theorem add_hashFunctions (f : SimpleBloomFilter) (x : Key) :
    (f.add x).hashFunctions = f.hashFunctions := rfl

theorem add_length (f : SimpleBloomFilter) (x : Key) :
    (f.add x).bitArray.length = f.bitArray.length :=
  setOnes_length _ _

theorem getHashes_add (f : SimpleBloomFilter) (x y : Key) :
    (f.add y).getHashes x = f.getHashes x := by
  unfold SimpleBloomFilter.getHashes
  rw [add_length, add_hashFunctions]

theorem has_iff (f : SimpleBloomFilter) (x : Key) :
    f.has x = true ↔ ∀ h ∈ f.getHashes x, f.bitArray[h]? ≠ some 0 := by
  simp [SimpleBloomFilter.has, List.all_eq_true]

theorem has_add_self (f : SimpleBloomFilter) (x : Key) :
    (f.add x).has x = true := by
  rw [has_iff, getHashes_add]
  intro h hmem
  exact setOnes_mem_ne_zero _ _ _ hmem

theorem has_mono (f : SimpleBloomFilter) (x y : Key)
    (hx : f.has x = true) : (f.add y).has x = true := by
  rw [has_iff, getHashes_add]
  rw [has_iff] at hx
  intro h hmem
  exact setOnes_ne_zero_preserved _ _ _ (hx h hmem)

theorem addAll_nil (f : SimpleBloomFilter) : f.addAll [] = f := rfl

theorem addAll_cons (f : SimpleBloomFilter) (a : Key) (ks : List Key) :
    f.addAll (a :: ks) = (f.add a).addAll ks := rfl

theorem has_addAll_mono (ks : List Key) : ∀ (f : SimpleBloomFilter) (x : Key),
    f.has x = true → (f.addAll ks).has x = true := by
  induction ks with
  | nil => intro f x hx; exact hx
  | cons a t ih =>
    intro f x hx
    rw [addAll_cons]
    exact ih (f.add a) x (has_mono f x a hx)

theorem mem_addAll_has (ks : List Key) : ∀ (f : SimpleBloomFilter) (x : Key),
    x ∈ ks → (f.addAll ks).has x = true := by
  induction ks with
  | nil => intro f x hx; cases hx
  | cons a t ih =>
    intro f x hx
    rw [addAll_cons]
    rcases List.mem_cons.mp hx with heq | htl
    · subst heq
      exact has_addAll_mono t (f.add x) x (has_add_self f x)
    · exact ih (f.add a) x htl

theorem addAll_length (ks : List Key) : ∀ f : SimpleBloomFilter,
    (f.addAll ks).bitArray.length = f.bitArray.length := by
  induction ks with
  | nil => intro f; rfl
  | cons a t ih =>
    intro f
    rw [addAll_cons, ih, add_length]

theorem addAll_hashFunctions (ks : List Key) : ∀ f : SimpleBloomFilter,
    (f.addAll ks).hashFunctions = f.hashFunctions := by
  induction ks with
  | nil => intro f; rfl
  | cons a t ih =>
    intro f
    rw [addAll_cons, ih, add_hashFunctions]

theorem construct_length (m k : Nat) :
    (SimpleBloomFilter.construct m k).bitArray.length = m := by
  simp [SimpleBloomFilter.construct]

theorem fromJSON_toJSON (f : SimpleBloomFilter) :
    SimpleBloomFilter.fromJSON f.toJSON = f := rfl

/-! ### Lemmas about the builder on the empty key list -/

theorem bloomSize_zero (r : ℝ) : bloomSize 0 r = 0 := by
  unfold bloomSize
  norm_num

theorem bloomHashFunctions_zero (r : ℝ) : bloomHashFunctions 0 r = 0 := by
  unfold bloomHashFunctions
  norm_num

theorem createBloomFilter_nil (r : ℝ) :
    createBloomFilter [] r = { bitArray := [], hashFunctions := 0 } := by
  unfold createBloomFilter
  rw [List.length_nil, bloomSize_zero, bloomHashFunctions_zero]
  rfl

/-! ### Claims -/

/-- C1: no false negatives.  For every filter with `size ≥ 1` and
`hashFunctions ≥ 1` and every sequence of `add` calls, `has x` returns
`true` for every `x` among the added keys; and for every key list and
valid error rate, the filter described by `createBloomFilter` answers
`has x = true` for every `x` in the list. -/
theorem c1_no_false_negatives :
    (∀ f : SimpleBloomFilter, 1 ≤ f.bitArray.length → 1 ≤ f.hashFunctions →
      ∀ (ks : List Key) (x : Key), x ∈ ks → (f.addAll ks).has x = true)
    ∧ (∀ (keys : List Key) (r : ℝ), 0 < r → r < 1 →
      ∀ x ∈ keys,
        (SimpleBloomFilter.fromJSON (createBloomFilter keys r)).has x = true) := by
  constructor
  · intro f _ _ ks x hx
    exact mem_addAll_has ks f x hx
  · intro keys r _ _ x hx
    unfold createBloomFilter
    rw [fromJSON_toJSON]
    exact mem_addAll_has keys _ x hx

/-- Witness for C1 at concrete inputs. -/
theorem c1_no_false_negatives_witness :
    (1 ≤ (SimpleBloomFilter.construct 5 2).bitArray.length
      ∧ 1 ≤ (SimpleBloomFilter.construct 5 2).hashFunctions
      ∧ [97] ∈ [[97]]
      ∧ ((SimpleBloomFilter.construct 5 2).addAll [[97]]).has [97] = true)
    ∧ ((0 : ℝ) < 1 / 2 ∧ (1 : ℝ) / 2 < 1 ∧ [97] ∈ [[97], [98]]
      ∧ (SimpleBloomFilter.fromJSON
          (createBloomFilter [[97], [98]] (1 / 2))).has [97] = true) :=
  ⟨⟨by decide, by decide, by decide,
    c1_no_false_negatives.1 _ (by decide) (by decide) [[97]] [97] (by decide)⟩,
   ⟨by norm_num, by norm_num, by decide,
    c1_no_false_negatives.2 [[97], [98]] (1 / 2) (by norm_num) (by norm_num)
      [97] (by decide)⟩⟩

/-- C2 counterexample: `createBloomFilter([], 1/2)` yields a filter whose
`has` answers `true` (not `false`) on the non-empty probe `"a"`: the size
comes out `0` and the hash loop never runs, so every probe passes. -/
theorem c2_counterexample :
    (SimpleBloomFilter.fromJSON (createBloomFilter [] (1 / 2))).has [97] = true := by
  rw [createBloomFilter_nil]
  rfl

/-- C2 (amended): for every error rate `r` in `(0,1)`,
`createBloomFilter([], r)` does not throw (it is total), but the filter it
produces has an empty bit array and a hash loop that never executes, so
`has p` returns `true` — not `false` — for every probe `p`. -/
theorem c2_empty_set_behavior (r : ℝ) (_h0 : 0 < r) (_h1 : r < 1) (p : Key) :
    (SimpleBloomFilter.fromJSON (createBloomFilter [] r)).has p = true := by
  rw [createBloomFilter_nil]
  rfl

/-- Witness for the amended C2 at `r = 1/2`, probe `"h"`. -/
theorem c2_empty_set_behavior_witness :
    (0 : ℝ) < 1 / 2 ∧ (1 : ℝ) / 2 < 1
    ∧ (SimpleBloomFilter.fromJSON (createBloomFilter [] (1 / 2))).has [104] = true :=
  ⟨by norm_num, by norm_num,
   c2_empty_set_behavior (1 / 2) (by norm_num) (by norm_num) [104]⟩

/-- C3 counterexample: when the fetch of the published filter returns
nothing, `getExistsRedirect` invokes the base-class lookup zero times —
not exactly once as claimed. -/
theorem c3_counterexample :
    (@getExistsRedirect Nat none [47] (some 5)).2 ≠ 1 := by decide

/-- C3 (amended): when the consumer's fetch of the published serialized
filter returns nothing, `getExistsRedirect` returns "no redirect"
immediately and invokes the base-class exact-match lookup zero times (it
does not fall back). -/
theorem c3_absent_filter_skips {α : Type} (pathname : Key)
    (superResult : Option α) :
    getExistsRedirect none pathname superResult = (none, 0) := rfl

/-- C4: serialization round-trip.  `fromJSON (toJSON f)` answers `has`
identically to `f`; in fact it reconstructs `f` exactly, so the agreement
persists across repeated cycles and under any further identical `add`
sequences applied to both. -/
theorem c4_round_trip (f : SimpleBloomFilter) (x : Key) :
    (SimpleBloomFilter.fromJSON f.toJSON).has x = f.has x
    ∧ SimpleBloomFilter.fromJSON f.toJSON = f
    ∧ ∀ ks : List Key,
        ((SimpleBloomFilter.fromJSON f.toJSON).addAll ks).has x
          = (f.addAll ks).has x :=
  ⟨by rw [fromJSON_toJSON], fromJSON_toJSON f,
   fun ks => by rw [fromJSON_toJSON]⟩

/-- C5: consumer dispatch on a present filter.  The base-class lookup is
invoked (exactly once) iff the deserialized filter's `has pathname` is
`true`; on `false` the middleware returns "no redirect" immediately with
no further lookup, and on `true` it returns whatever the base lookup
returns. -/
theorem c5_present_filter_dispatch {α : Type} (j : FilterJSON)
    (pathname : Key) (superResult : Option α) :
    ((getExistsRedirect (some j) pathname superResult).2 = 1
      ↔ (SimpleBloomFilter.fromJSON j).has pathname = true)
    ∧ ((SimpleBloomFilter.fromJSON j).has pathname = false →
        getExistsRedirect (some j) pathname superResult = (none, 0))
    ∧ ((SimpleBloomFilter.fromJSON j).has pathname = true →
        getExistsRedirect (some j) pathname superResult = (superResult, 1)) := by
  unfold getExistsRedirect
  cases hb : (SimpleBloomFilter.fromJSON j).has pathname <;> simp [hb]

/-- Witness for C5: a present filter whose `has` rejects the path makes the
middleware return "no redirect" with zero base-class calls. -/
theorem c5_present_filter_dispatch_witness :
    (SimpleBloomFilter.fromJSON ⟨[0], 1⟩).has [97] = false
    ∧ getExistsRedirect (some ⟨[0], 1⟩) [97] (some 5)
        = ((none : Option Nat), 0) :=
  ⟨by decide,
   (c5_present_filter_dispatch ⟨[0], 1⟩ [97] (some 5)).2.1 (by decide)⟩

/-! ### Lemmas about the hash indices -/

theorem hashIndex_lt (m i : Nat) (x : Key) (hm : 1 ≤ m) : hashIndex m i x < m :=
  Nat.mod_lt _ (by omega)

theorem rawHash_nil (i : Nat) : rawHash i [] = 0 := rfl

theorem hashIndex_nil (m i : Nat) : hashIndex m i [] = 0 := by
  unfold hashIndex
  rw [rawHash_nil]
  simp

theorem getHashesAux_nil_key (m k : Nat) :
    getHashesAux m k [] = List.replicate k 0 := by
  unfold getHashesAux
  simp [hashIndex_nil]

theorem getHashes_nil (f : SimpleBloomFilter) :
    f.getHashes [] = List.replicate f.hashFunctions 0 :=
  getHashesAux_nil_key _ _

/-- C6: monotonicity of `add`.  Adding a further key `y` never changes
`has x` from `true` to `false`: the set of keys accepted by `has` only
grows under `add`. -/
theorem c6_add_monotonic (f : SimpleBloomFilter)
    (_hm : 1 ≤ f.bitArray.length) (_hk : 1 ≤ f.hashFunctions)
    (x y : Key) (hx : f.has x = true) : (f.add y).has x = true :=
  has_mono f x y hx

/-- Witness for C6 at a concrete filter. -/
theorem c6_add_monotonic_witness :
    1 ≤ (SimpleBloomFilter.mk [1, 1, 1] 1).bitArray.length
    ∧ 1 ≤ (SimpleBloomFilter.mk [1, 1, 1] 1).hashFunctions
    ∧ (SimpleBloomFilter.mk [1, 1, 1] 1).has [97] = true
    ∧ ((SimpleBloomFilter.mk [1, 1, 1] 1).add [98]).has [97] = true :=
  ⟨by decide, by decide, by decide,
   c6_add_monotonic _ (by decide) (by decide) [97] [98] (by decide)⟩

/-- C7: builder sizing.  `createBloomFilter` chooses the bit-array size as
`ceil(-(n * ln r) / (ln 2)^2)` and the hash count as
`ceil((size / n) * ln 2)` — the spec's optimum formulas (both positive for
`n ≥ 1` and `r ∈ (0,1)`, so the `Int.toNat` conversions are faithful). -/
theorem c7_builder_sizing (keys : List Key) (r : ℝ) (hn : 1 ≤ keys.length)
    (h0 : 0 < r) (h1 : r < 1) :
    1 ≤ specSize keys.length r
    ∧ (createBloomFilter keys r).bitArray.length = (specSize keys.length r).toNat
    ∧ 1 ≤ specHashCount (specSize keys.length r).toNat keys.length
    ∧ (createBloomFilter keys r).hashFunctions
        = (specHashCount (specSize keys.length r).toNat keys.length).toNat := by
  have hn' : (0 : ℝ) < (keys.length : ℝ) := by
    have : 0 < keys.length := by omega
    exact_mod_cast this
  have hlog2 : (0 : ℝ) < Real.log 2 := Real.log_pos (by norm_num)
  have hpos : (0 : ℝ) < -((keys.length : ℝ) * Real.log r) / (Real.log 2) ^ 2 := by
    apply div_pos
    · have hlog : Real.log r < 0 := Real.log_neg h0 h1
      nlinarith
    · exact pow_pos hlog2 2
  have hsize1 : 1 ≤ specSize keys.length r := by
    have : 0 < specSize keys.length r := Int.ceil_pos.mpr hpos
    omega
  have hbk : bloomSize keys.length r = (specSize keys.length r).toNat := rfl
  have hlen : (createBloomFilter keys r).bitArray.length
      = bloomSize keys.length r := by
    unfold createBloomFilter
    show ((SimpleBloomFilter.construct _ _).addAll keys).bitArray.length = _
    rw [addAll_length, construct_length]
  have hm1 : (0 : ℝ) < ((bloomSize keys.length r : Nat) : ℝ) := by
    have : 1 ≤ bloomSize keys.length r := by rw [hbk]; omega
    have h' : 0 < bloomSize keys.length r := by omega
    exact_mod_cast h'
  have hk1 : 1 ≤ specHashCount (specSize keys.length r).toNat keys.length := by
    have hkpos : (0 : ℝ)
        < (((specSize keys.length r).toNat : Nat) : ℝ) / (keys.length : ℝ)
            * Real.log 2 := by
      apply mul_pos _ hlog2
      apply div_pos _ hn'
      rw [← hbk]
      exact hm1
    have : 0 < specHashCount (specSize keys.length r).toNat keys.length :=
      Int.ceil_pos.mpr hkpos
    omega
  have hkfun : (createBloomFilter keys r).hashFunctions
      = bloomHashFunctions keys.length r := by
    unfold createBloomFilter
    show ((SimpleBloomFilter.construct _ _).addAll keys).hashFunctions = _
    rw [addAll_hashFunctions]
    rfl
  exact ⟨hsize1, by rw [hlen, hbk], hk1, by rw [hkfun]; rfl⟩

/-- Witness for C7 at one key and error rate `1/2`. -/
theorem c7_builder_sizing_witness :
    1 ≤ ([[97]] : List Key).length ∧ (0 : ℝ) < 1 / 2 ∧ (1 : ℝ) / 2 < 1
    ∧ (1 ≤ specSize ([[97]] : List Key).length (1 / 2)
      ∧ (createBloomFilter [[97]] (1 / 2)).bitArray.length
          = (specSize ([[97]] : List Key).length (1 / 2)).toNat
      ∧ 1 ≤ specHashCount (specSize ([[97]] : List Key).length (1 / 2)).toNat
          ([[97]] : List Key).length
      ∧ (createBloomFilter [[97]] (1 / 2)).hashFunctions
          = (specHashCount (specSize ([[97]] : List Key).length (1 / 2)).toNat
              ([[97]] : List Key).length).toNat) :=
  ⟨by decide, by norm_num, by norm_num,
   c7_builder_sizing [[97]] (1 / 2) (by decide) (by norm_num) (by norm_num)⟩

/-- C8: structural invariants.  The bit-array length equals the
construction size across any sequence of `add` calls, each single `add`
preserves the length, and a bit equal to `1` is never cleared by a
subsequent `add` (`has` is pure and mutates nothing in this embedding). -/
theorem c8_structural_invariants :
    (∀ (m k : Nat) (ks : List Key),
      ((SimpleBloomFilter.construct m k).addAll ks).bitArray.length = m)
    ∧ (∀ (f : SimpleBloomFilter) (x : Key),
        (f.add x).bitArray.length = f.bitArray.length)
    ∧ (∀ (f : SimpleBloomFilter) (x : Key) (i : Nat),
        f.bitArray[i]? = some 1 → (f.add x).bitArray[i]? = some 1) := by
  refine ⟨?_, ?_, ?_⟩
  · intro m k ks
    rw [addAll_length, construct_length]
  · intro f x
    exact add_length f x
  · intro f x i h1
    exact setOnes_one_preserved _ _ _ h1

/-- Witness for C8: a set bit survives an `add`. -/
theorem c8_structural_invariants_witness :
    (SimpleBloomFilter.mk [1, 0] 1).bitArray[0]? = some 1
    ∧ ((SimpleBloomFilter.mk [1, 0] 1).add [97]).bitArray[0]? = some 1 :=
  ⟨by decide, c8_structural_invariants.2.2 _ [97] 0 (by decide)⟩

/-- C9: totality and index safety.  `getHashes` produces exactly
`hashFunctions` indices, and for a bit array of length `≥ 1` every index
is strictly below that length (it is `natAbs` of the 32-bit hash reduced
modulo the length), so `add` and `has` only touch in-bounds positions. -/
theorem c9_index_safety (f : SimpleBloomFilter) (x : Key)
    (hm : 1 ≤ f.bitArray.length) :
    (f.getHashes x).length = f.hashFunctions
    ∧ ∀ h ∈ f.getHashes x, h < f.bitArray.length := by
  constructor
  · simp [SimpleBloomFilter.getHashes, getHashesAux]
  · intro h hmem
    unfold SimpleBloomFilter.getHashes getHashesAux at hmem
    obtain ⟨i, _, rfl⟩ := List.mem_map.mp hmem
    exact hashIndex_lt _ _ _ hm

/-- Witness for C9 at a concrete filter and key. -/
theorem c9_index_safety_witness :
    1 ≤ (SimpleBloomFilter.mk [0, 0, 0] 2).bitArray.length
    ∧ 1 ∈ (SimpleBloomFilter.mk [0, 0, 0] 2).getHashes [97]
    ∧ 1 < (SimpleBloomFilter.mk [0, 0, 0] 2).bitArray.length :=
  ⟨by decide, by decide,
   (c9_index_safety _ [97] (by decide)).2 1 (by decide)⟩

/-- C10: the empty-string edge case.  All hash indices of `""` are `0`
(the seed is only folded in per character), `add ""` sets exactly bit `0`,
`has ""` answers `true` exactly when bit `0` is nonzero (equivalently,
is `1` for a 0/1-valued bit array), and adding any key one of whose hash
indices is `0` makes `has ""` report a possible hit. -/
theorem c10_empty_string (f : SimpleBloomFilter)
    (hm : 1 ≤ f.bitArray.length) (hk : 1 ≤ f.hashFunctions) :
    f.getHashes [] = List.replicate f.hashFunctions 0
    ∧ (f.add []).bitArray = f.bitArray.set 0 1
    ∧ (f.has [] = true ↔ f.bitArray[0]? ≠ some 0)
    ∧ ((∀ b ∈ f.bitArray, b ≤ 1) →
        (f.has [] = true ↔ f.bitArray[0]? = some 1))
    ∧ (∀ y : Key, 0 ∈ f.getHashes y → (f.add y).has [] = true) := by
  have h3 : f.has [] = true ↔ f.bitArray[0]? ≠ some 0 := by
    rw [has_iff, getHashes_nil]
    constructor
    · intro hall
      exact hall 0 (List.mem_replicate.mpr ⟨by omega, rfl⟩)
    · intro hne h hmem
      rw [List.eq_of_mem_replicate hmem]
      exact hne
  refine ⟨getHashes_nil f, ?_, h3, ?_, ?_⟩
  · show setOnes f.bitArray (f.getHashes []) = f.bitArray.set 0 1
    rw [getHashes_nil]
    exact setOnes_replicate_zero f.hashFunctions hk f.bitArray
  · intro hbits
    have hlt : 0 < f.bitArray.length := by omega
    have hget : f.bitArray[0]? = some f.bitArray[0] := List.getElem?_eq_getElem hlt
    have hb : f.bitArray[0] ≤ 1 := hbits _ (List.getElem_mem hlt)
    rw [h3, hget]
    rcases Nat.lt_or_ge f.bitArray[0] 1 with hlt1 | hge1
    · have hz : f.bitArray[0] = 0 := by omega
      simp [hz]
    · have ho : f.bitArray[0] = 1 := by omega
      simp [ho]
  · intro y h0
    rw [has_iff, getHashes_nil]
    intro h hmem
    obtain rfl := List.eq_of_mem_replicate hmem
    show (f.add y).bitArray[0]? ≠ some 0
    exact setOnes_mem_ne_zero _ _ 0 h0

/-- Witness for C10 at a concrete filter. -/
theorem c10_empty_string_witness :
    1 ≤ (SimpleBloomFilter.mk [0, 1] 2).bitArray.length
    ∧ 1 ≤ (SimpleBloomFilter.mk [0, 1] 2).hashFunctions
    ∧ (∀ b ∈ (SimpleBloomFilter.mk [0, 1] 2).bitArray, b ≤ 1)
    ∧ 0 ∈ (SimpleBloomFilter.mk [0, 1] 2).getHashes [98]
    ∧ (SimpleBloomFilter.mk [0, 1] 2).getHashes []
        = List.replicate (SimpleBloomFilter.mk [0, 1] 2).hashFunctions 0
    ∧ ((SimpleBloomFilter.mk [0, 1] 2).has [] = true
        ↔ (SimpleBloomFilter.mk [0, 1] 2).bitArray[0]? = some 1)
    ∧ ((SimpleBloomFilter.mk [0, 1] 2).add [98]).has [] = true :=
  ⟨by decide, by decide, by decide, by decide,
   (c10_empty_string _ (by decide) (by decide)).1,
   (c10_empty_string _ (by decide) (by decide)).2.2.2.1 (by decide),
   (c10_empty_string _ (by decide) (by decide)).2.2.2.2 [98] (by decide)⟩
